import Mathlib

/-!
Verification of the vanity-address search tool (`app.ts`).

Modelling conventions:
* JS strings are `List Char`; byte arrays (`Uint8Array`, `Buffer`) are
  `List Nat` whose elements are below 256.
* The SHA3-256 digest and the Ed25519 key-generation primitive are external
  collaborators (spec section 1); the digest is a parameter `hash` of the
  derivation functions, and a generated key pair is a structure carrying the
  raw public-key and private-key bytes.
* The worker's unbounded loop is observed on a finite leading segment of the
  stream of freshly generated key pairs; the coordinator's event handler is a
  fold over the finite list of messages it receives.
-/

/-- One lowercase hex digit char as produced by JS `Number.prototype.toString(16)`
and `BigInt.prototype.toString(16)`: digits `0`-`9` then `a`-`f`. -/
def hexDigitChar (d : Nat) : Char :=
  if d < 10 then Char.ofNat (48 + d) else Char.ofNat (87 + d)

/-- Fuel-indexed big-endian digit expansion of `n` in base `base`, each digit
rendered through `emit`. The fuel only serves structural recursion (so that
concrete values compute by `decide`); any `fuel ≥ n` gives the exact digits. -/
def digitsCore {α : Type} (base : Nat) (emit : Nat → α) : Nat → Nat → List α
  | 0, _ => []
  | fuel + 1, n => if n = 0 then [] else digitsCore base emit fuel (n / base) ++ [emit (n % base)]

/-- Minimal big-endian digit expansion of `n` in base `base` (empty for 0). -/
def bigEndianDigits {α : Type} (base : Nat) (emit : Nat → α) (n : Nat) : List α :=
  digitsCore base emit n n

/-- Minimal hex digit chars of `n`, empty for `0`. -/
def hexChars (n : Nat) : List Char := bigEndianDigits 16 hexDigitChar n

/-- JS `n.toString(16)` for a nonnegative number or bigint:
minimal lowercase hex, and the single char `"0"` for zero. -/
def natToHexChars (n : Nat) : List Char := if n = 0 then ['0'] else hexChars n

/-- JS `String.prototype.padStart(len, c)`. -/
def padStart (len : Nat) (c : Char) (s : List Char) : List Char :=
  List.replicate (len - s.length) c ++ s

/-- `b.toString(16).padStart(2, '0')` from the source's `bytesToHex`:
one byte rendered as exactly two lowercase hex chars. -/
def byteToHex (b : Nat) : List Char := padStart 2 '0' (natToHexChars b)

/-- `bytesToHex` from the source: each byte to two lowercase hex characters,
zero padded, concatenated in byte order. -/
def bytesToHex (bytes : List Nat) : List Char := (bytes.map byteToHex).flatten

/-- Value of one hex digit char as accepted by Node's `Buffer.from(s, 'hex')`:
`0`-`9`, `a`-`f` and `A`-`F`. -/
def hexCharVal (c : Char) : Option Nat :=
  if 48 ≤ c.toNat ∧ c.toNat ≤ 57 then some (c.toNat - 48)
  else if 97 ≤ c.toNat ∧ c.toNat ≤ 102 then some (c.toNat - 87)
  else if 65 ≤ c.toNat ∧ c.toNat ≤ 70 then some (c.toNat - 55)
  else none

/-- Node `Buffer.from(s, 'hex')`: decode complete leading pairs of hex digits
and stop at the first incomplete or invalid pair (so a trailing lone digit is
dropped, and an odd single-digit string decodes to the empty buffer). -/
def hexDecode : List Char → List Nat
  | c1 :: c2 :: rest =>
    match hexCharVal c1, hexCharVal c2 with
    | some hi, some lo => (16 * hi + lo) :: hexDecode rest
    | _, _ => []
  | _ => []

/-- A generated Ed25519 key pair, exposed by the external key-generation
primitive as raw public-key bytes and raw private-key bytes. -/
structure Ed25519Key where
  publicKeyBytes : List Nat
  privateKeyBytes : List Nat
deriving DecidableEq

/-- `SEQUENCE_NUMBER_MULTISIG = 0n` from the source. -/
def SEQUENCE_NUMBER_MULTISIG : Nat := 0

/-- `authKeyBytesVec` from the source: append the scheme identifier byte
`0x00` to the public key and hash. The digest (`createHash('sha3-256')`)
is the external parameter `hash`. -/
def authKeyBytesVec (hash : List Nat → List Nat) (k : Ed25519Key) : List Nat :=
  hash (k.publicKeyBytes ++ [0])

/-- `Buffer.from('aptos_framework::multisig_account')`: the UTF-8 bytes of the
domain-separation seed string. -/
def multisigSeed : List Nat := "aptos_framework::multisig_account".toList.map Char.toNat

/-- `Buffer.from(creatorNonce.toString(16), 'hex')` from the source's
`createMultisigAccountAddress`. -/
def nonceBytes (creatorNonce : Nat) : List Nat := hexDecode (natToHexChars creatorNonce)

/-- `createMultisigAccountAddress` from the source: hash the concatenation of
the creator address bytes, the seed, the nonce bytes and the terminator `0xFF`. -/
def createMultisigAccountAddress (hash : List Nat → List Nat) (creator : List Nat)
    (creatorNonce : Nat) : List Nat :=
  hash (creator ++ multisigSeed ++ nonceBytes creatorNonce ++ [255])

/-- The preimage actually fed to the digest by `createMultisigAccountAddress`. -/
def multisigPreimage (creator : List Nat) (creatorNonce : Nat) : List Nat :=
  creator ++ multisigSeed ++ nonceBytes creatorNonce ++ [255]

/-- Modelled from the spec: the nonce "rendered as the minimal big-endian
byte sequence for its numeric value (empty byte sequence when nonce is zero)". -/
def minBEBytes (n : Nat) : List Nat := bigEndianDigits 256 (fun d => d) n

/-- Modelled from the spec: the multisig digest preimage as the spec words it,
with the nonce as a minimal big-endian byte sequence. -/
def multisigPreimageSpec (creator : List Nat) (nonce : Nat) : List Nat :=
  creator ++ multisigSeed ++ minBEBytes nonce ++ [255]

/-- The `workerData` passed to each worker: the configured prefix (`pfx`),
suffix (`sfx`) and multisig flag. The two pattern fields are JS
`string | undefined`. -/
structure WorkerData where
  pfx : Option (List Char)
  sfx : Option (List Char)
  multisig : Bool

/-- JS truthiness of a `string | undefined` value: `undefined` and the empty
string are falsy. -/
def jsTruthy : Option (List Char) → Bool
  | none => false
  | some s => !s.isEmpty

/-- The match predicate formed by the worker loop's two guard lines
`if (prefix && !address.startsWith(prefix)) continue;`
`if (suffix && !address.endsWith(suffix)) continue;`. -/
def matchesAddr (address : List Char) (pfx sfx : Option (List Char)) : Bool :=
  if jsTruthy pfx && !(List.isPrefixOf (pfx.getD []) address) then false
  else if jsTruthy sfx && !(List.isSuffixOf (sfx.getD []) address) then false
  else true

/-- A message a worker posts to the main thread: either
`{ type: 'progress', count }` or `{ type: 'result', address, privateKey, multisigAddress }`. -/
inductive WorkerMessage where
  | progress (count : Nat)
  | result (address : List Char) (privateKey : List Char) (multisigAddress : Option (List Char))
deriving DecidableEq

/-- The bytes the worker searches on: the multisig account address derived from
the standard address with nonce `SEQUENCE_NUMBER_MULTISIG` when the multisig
flag is set, otherwise the standard (auth key) address bytes. -/
def searchBytesOf (hash : List Nat → List Nat) (wd : WorkerData) (k : Ed25519Key) : List Nat :=
  let accountAddressBytes := authKeyBytesVec hash k
  if wd.multisig then
    createMultisigAccountAddress hash accountAddressBytes SEQUENCE_NUMBER_MULTISIG
  else accountAddressBytes

/-- The worker's `generateKey` loop, observed over a finite leading segment
`keys` of the stream of freshly generated key pairs, starting from local
counter value `localGenCount`. Mirrors the source's iteration order: the
counter is incremented first and a progress message is posted at every
multiple of 1000, then the key is derived, matched, and a result message is
posted on match. -/
def generateKey (hash : List Nat → List Nat) (wd : WorkerData) :
    List Ed25519Key → Nat → List WorkerMessage
  | [], _ => []
  | k :: rest, localGenCount =>
    let cnt := localGenCount + 1
    let progressMsgs : List WorkerMessage :=
      if cnt % 1000 = 0 then [WorkerMessage.progress 1000] else []
    let address := bytesToHex (searchBytesOf hash wd k)
    let resultMsgs : List WorkerMessage :=
      if matchesAddr address wd.pfx wd.sfx then
        [WorkerMessage.result address (bytesToHex k.privateKeyBytes)
          (if wd.multisig then some address else none)]
      else []
    progressMsgs ++ resultMsgs ++ generateKey hash wd rest cnt

/-- The coordinator's mutable state in `main`. `printedResults`,
`printedFinalStats` and `exitCode` observe the console output and
`process.exit`; `progressProcessed` is a ghost counter of how many progress
messages have been handled, used only to state invariants. -/
structure MainState where
  foundCount : Nat
  totalGenerated : Nat
  printedResults : Nat
  printedFinalStats : Bool
  exitCode : Option Nat
  progressProcessed : Nat
deriving DecidableEq

/-- Coordinator state at the start of `main`. -/
def initialState : MainState :=
  { foundCount := 0, totalGenerated := 0, printedResults := 0,
    printedFinalStats := false, exitCode := none, progressProcessed := 0 }

/-- The coordinator's `worker.on('message', ...)` handler, with `count` the
configured target count (`args.count`). After `process.exit(0)` the handler
can no longer run, so an exited state absorbs every further message. -/
def handleMessage (count : Nat) (s : MainState) (m : WorkerMessage) : MainState :=
  if s.exitCode.isSome then s
  else
    match m with
    | WorkerMessage.progress c =>
      { s with totalGenerated := s.totalGenerated + c,
               progressProcessed := s.progressProcessed + 1 }
    | WorkerMessage.result _ _ _ =>
      let s1 := { s with foundCount := s.foundCount + 1,
                         printedResults := s.printedResults + 1 }
      if count ≤ s1.foundCount then
        { s1 with printedFinalStats := true, exitCode := some 0 }
      else s1

/-- The coordinator processing a finite sequence of incoming worker messages
in arrival order. -/
def runMain (count : Nat) (ms : List WorkerMessage) : MainState :=
  ms.foldl (handleMessage count) initialState

/-- The `!prefix && !suffix` early return of `calculateEstimate`:
whether the 'Should be instant' sentinel is returned. -/
def calculateEstimateInstant (pfx sfx : Option (List Char)) : Bool :=
  !jsTruthy pfx && !jsTruthy sfx

/-- `(prefix?.length || 0) + (suffix?.length || 0)` from `calculateEstimate`. -/
def matchNeeded (pfx sfx : Option (List Char)) : Nat :=
  (pfx.getD []).length + (sfx.getD []).length

/-- `Math.ceil(-Math.log(0.05) / probabilityPerTry)` from `calculateEstimate`,
with `probabilityPerTry = 1 / 16 ** matchNeeded`, read over the real numbers. -/
noncomputable def attemptsNeeded (m : Nat) : ℤ :=
  ⌈(-Real.log 0.05) / (1 / (16 : ℝ) ^ m)⌉

/-- Whether a worker message is a progress message. -/
def isProgress : WorkerMessage → Bool
  | WorkerMessage.progress _ => true
  | _ => false

/-- Whether a worker message is a result message. -/
def isResult : WorkerMessage → Bool
  | WorkerMessage.result _ _ _ => true
  | _ => false

/-- Number of result messages in a message list. -/
def countResults (ms : List WorkerMessage) : Nat := ms.countP isResult

/-- Number of progress messages in a message list. -/
def countProgress (ms : List WorkerMessage) : Nat := ms.countP isProgress

/-- The `count` carried by a progress message, 0 for results. -/
def progressAmount : WorkerMessage → Nat
  | WorkerMessage.progress c => c
  | _ => 0

/-- Sum of the counts carried by the progress messages of a list. -/
def sumProgress (ms : List WorkerMessage) : Nat := (ms.map progressAmount).sum

/-- A message is either a result or a progress message carrying exactly 1000. -/
def progOk : WorkerMessage → Bool
  | WorkerMessage.progress c => c == 1000
  | _ => true

/-- Whether a char belongs to the lowercase hex alphabet `0-9a-f`. -/
def isLowerHexDigit (c : Char) : Bool :=
  ('0' ≤ c && c ≤ '9') || ('a' ≤ c && c ≤ 'f')

/-- Minimal base-16 digit list of `n` (values, not chars), empty for 0.
Proof helper underlying `hexChars`. -/
def hexDigits (n : Nat) : List Nat := bigEndianDigits 16 (fun d => d) n

/-- Pair up a digit list from the most significant end, dropping a trailing
lone digit: the byte list `Buffer.from(hexString, 'hex')` produces. -/
def pairBE : List Nat → List Nat
  | d1 :: d2 :: rest => (16 * d1 + d2) :: pairBE rest
  | _ => []

/-! ### Digit-expansion lemmas -/

theorem digitsCore_fuel {α : Type} (base : Nat) (hb : 2 ≤ base) (emit : Nat → α) :
    ∀ f g n, n ≤ f → n ≤ g → digitsCore base emit f n = digitsCore base emit g n := by
  intro f
  induction f with
  | zero =>
    intro g n hf _
    obtain rfl : n = 0 := Nat.le_zero.mp hf
    cases g <;> simp [digitsCore]
  | succ f ih =>
    intro g n hf hg
    cases g with
    | zero =>
      obtain rfl : n = 0 := Nat.le_zero.mp hg
      simp [digitsCore]
    | succ g =>
      cases n with
      | zero => simp [digitsCore]
      | succ n =>
        simp only [digitsCore, if_neg (Nat.succ_ne_zero n)]
        have hlt : (n + 1) / base < n + 1 := Nat.div_lt_self (Nat.succ_pos n) (by omega)
        rw [ih g ((n + 1) / base) (by omega) (by omega)]

theorem bigEndianDigits_eq {α : Type} (base : Nat) (hb : 2 ≤ base) (emit : Nat → α) (n : Nat) :
    bigEndianDigits base emit n =
      if n = 0 then [] else bigEndianDigits base emit (n / base) ++ [emit (n % base)] := by
  cases n with
  | zero => simp [bigEndianDigits, digitsCore]
  | succ n =>
    simp only [bigEndianDigits, digitsCore, if_neg (Nat.succ_ne_zero n)]
    have hlt : (n + 1) / base < n + 1 := Nat.div_lt_self (Nat.succ_pos n) (by omega)
    rw [digitsCore_fuel base hb emit n ((n + 1) / base) ((n + 1) / base) (by omega) le_rfl]

theorem bigEndianDigits_map {α : Type} (base : Nat) (hb : 2 ≤ base) (emit : Nat → α) (n : Nat) :
    bigEndianDigits base emit n = (bigEndianDigits base (fun d => d) n).map emit := by
  induction n using Nat.strong_induction_on with
  | _ n ih =>
    rw [bigEndianDigits_eq base hb emit n, bigEndianDigits_eq base hb (fun d => d) n]
    cases n with
    | zero => simp
    | succ n =>
      simp only [if_neg (Nat.succ_ne_zero n), List.map_append, List.map_cons, List.map_nil]
      rw [ih ((n + 1) / base) (Nat.div_lt_self (Nat.succ_pos n) (by omega))]

theorem bigEndianDigits_lt (base : Nat) (hb : 2 ≤ base) (n : Nat) :
    ∀ d ∈ bigEndianDigits base (fun d => d) n, d < base := by
  induction n using Nat.strong_induction_on with
  | _ n ih =>
    rw [bigEndianDigits_eq base hb _ n]
    cases n with
    | zero => simp
    | succ n =>
      simp only [if_neg (Nat.succ_ne_zero n), List.mem_append, List.mem_singleton]
      rintro d (hd | rfl)
      · exact ih ((n + 1) / base) (Nat.div_lt_self (Nat.succ_pos n) (by omega)) d hd
      · exact Nat.mod_lt _ (by omega)

theorem hexDigits_eq (n : Nat) :
    hexDigits n = if n = 0 then [] else hexDigits (n / 16) ++ [n % 16] :=
  bigEndianDigits_eq 16 (by omega) _ n

theorem minBEBytes_eq (n : Nat) :
    minBEBytes n = if n = 0 then [] else minBEBytes (n / 256) ++ [n % 256] :=
  bigEndianDigits_eq 256 (by omega) _ n

theorem hexChars_map (n : Nat) : hexChars n = (hexDigits n).map hexDigitChar :=
  bigEndianDigits_map 16 (by omega) hexDigitChar n

theorem hexDigits_lt (n : Nat) : ∀ d ∈ hexDigits n, d < 16 :=
  bigEndianDigits_lt 16 (by omega) n

theorem pairBE_append : ∀ xs ys : List Nat, xs.length % 2 = 0 →
    pairBE (xs ++ ys) = pairBE xs ++ pairBE ys
  | [], ys, _ => by simp [pairBE]
  | [a], ys, h => by simp at h
  | a :: b :: t, ys, h => by
    have ht : t.length % 2 = 0 := by
      simp only [List.length_cons] at h
      omega
    calc pairBE ((a :: b :: t) ++ ys) = (16 * a + b) :: pairBE (t ++ ys) := rfl
      _ = (16 * a + b) :: (pairBE t ++ pairBE ys) := by rw [pairBE_append t ys ht]
      _ = pairBE (a :: b :: t) ++ pairBE ys := rfl

theorem hexCharVal_hexDigitChar : ∀ d, d < 16 → hexCharVal (hexDigitChar d) = some d := by
  decide

theorem hexDecode_map : ∀ ds : List Nat, (∀ d ∈ ds, d < 16) →
    hexDecode (ds.map hexDigitChar) = pairBE ds
  | [], _ => rfl
  | [d], _ => rfl
  | d1 :: d2 :: t, h => by
    simp only [List.map_cons, hexDecode,
      hexCharVal_hexDigitChar d1 (h d1 (by simp)),
      hexCharVal_hexDigitChar d2 (h d2 (by simp)), pairBE]
    rw [hexDecode_map t (fun d hd => h d (by simp [hd]))]

theorem pairBE_hexDigits (n : Nat) :
    pairBE (hexDigits n) = minBEBytes (if (hexDigits n).length % 2 = 0 then n else n / 16) := by
  induction n using Nat.strong_induction_on with
  | _ n ih =>
    rcases Nat.lt_or_ge n 1 with h0 | h1
    · obtain rfl : n = 0 := by omega
      simp [hexDigits, minBEBytes, bigEndianDigits, digitsCore, pairBE]
    rcases Nat.lt_or_ge n 16 with h16 | h16
    · have hone : hexDigits n = [n] := by
        rw [hexDigits_eq n, if_neg (by omega), hexDigits_eq (n / 16),
          if_pos (by omega), Nat.mod_eq_of_lt h16]
        simp
      rw [hone]
      have : minBEBytes (n / 16) = [] := by
        rw [minBEBytes_eq, if_pos (by omega)]
      simp [pairBE, this]
    · -- n ≥ 16: at least two hex digits
      have hq16 : n / 16 ≠ 0 := by
        have h := (Nat.one_le_div_iff (by omega : 0 < 16)).mpr h16
        omega
      have e1 : hexDigits n = hexDigits (n / 16) ++ [n % 16] := by
        rw [hexDigits_eq n, if_neg (by omega)]
      have e2 : hexDigits (n / 16) = hexDigits (n / 256) ++ [n / 16 % 16] := by
        rw [hexDigits_eq (n / 16), if_neg hq16, Nat.div_div_eq_div_mul]
      have hlen : (hexDigits n).length = (hexDigits (n / 256)).length + 2 := by
        rw [e1, e2]; simp
      have hq_lt : n / 256 < n := Nat.div_lt_self (by omega) (by omega)
      have h16_lt : n / 16 < n := Nat.div_lt_self (by omega) (by omega)
      rcases Nat.even_or_odd (hexDigits (n / 256)).length with hev | hod
      · -- even number of digits above the last two: n has evenly many digits
        have hev2 : (hexDigits (n / 256)).length % 2 = 0 := Nat.even_iff.mp hev
        have hevn : (hexDigits n).length % 2 = 0 := by omega
        have hsplit : hexDigits n = hexDigits (n / 256) ++ [n / 16 % 16, n % 16] := by
          rw [e1, e2, List.append_assoc]; rfl
        have hpair2 : pairBE [n / 16 % 16, n % 16] = [16 * (n / 16 % 16) + n % 16] := rfl
        have hbyte : 16 * (n / 16 % 16) + n % 16 = n % 256 := by omega
        have ihq := ih (n / 256) hq_lt
        rw [if_pos hev2] at ihq
        rw [if_pos hevn, hsplit, pairBE_append _ _ hev2, hpair2, ihq, hbyte,
          minBEBytes_eq n, if_neg (by omega)]
      · -- odd: the final lone hex digit is dropped
        have hod2 : (hexDigits (n / 256)).length % 2 = 1 := Nat.odd_iff.mp hod
        have hodn : (hexDigits n).length % 2 = 1 := by omega
        have hev16 : (hexDigits (n / 16)).length % 2 = 0 := by
          rw [e2]; simp only [List.length_append, List.length_cons, List.length_nil]
          omega
        have hpair1 : pairBE [n % 16] = [] := rfl
        have ihq := ih (n / 16) h16_lt
        rw [if_pos hev16] at ihq
        rw [if_neg (by omega), e1, pairBE_append _ _ hev16, hpair1, List.append_nil, ihq]

theorem nonceBytes_minBE (n : Nat) :
    nonceBytes n =
      minBEBytes (if (natToHexChars n).length % 2 = 0 then n else n / 16) := by
  rcases Nat.eq_zero_or_pos n with rfl | hn
  · decide
  · have hchars : natToHexChars n = (hexDigits n).map hexDigitChar := by
      rw [natToHexChars, if_neg (by omega), hexChars_map]
    rw [nonceBytes, hchars, hexDecode_map _ (hexDigits_lt n), List.length_map]
    exact pairBE_hexDigits n

/-! ### Claim C3 -/

/-- C3 counterexample: for nonce 1 the code's nonce rendering
(`Buffer.from((1n).toString(16), 'hex')`) is the empty byte sequence, not the
minimal big-endian sequence `[0x01]`, so the digested preimage differs from
the one the claim describes. -/
theorem multisigPreimage_ne_spec_at_one :
    nonceBytes 1 = [] ∧ minBEBytes 1 = [1] ∧
      multisigPreimage [] 1 ≠ multisigPreimageSpec [] 1 := by decide

/-- C3 (amended): `createMultisigAccountAddress` hashes the concatenation of
the creator bytes, the seed `"aptos_framework::multisig_account"`, the nonce
bytes and the terminator `0xFF`, where the nonce bytes are the minimal
big-endian rendering only when the nonce's hex rendering has evenly many
digits; when it has oddly many (in particular for nonce 0, rendered `"0"`,
giving the empty sequence, and for any nonce below 16) the trailing lone hex
digit is dropped, giving the minimal big-endian rendering of `nonce / 16`. -/
theorem createMultisigAccountAddress_preimage (hash : List Nat → List Nat)
    (creator : List Nat) (creatorNonce : Nat) :
    createMultisigAccountAddress hash creator creatorNonce =
      hash (creator ++ multisigSeed ++ nonceBytes creatorNonce ++ [255])
    ∧ nonceBytes creatorNonce =
        minBEBytes (if (natToHexChars creatorNonce).length % 2 = 0 then creatorNonce
          else creatorNonce / 16)
    ∧ nonceBytes 0 = [] :=
  ⟨rfl, nonceBytes_minBE creatorNonce, rfl⟩

/-! ### Claim C4 -/

/-- C4: for every key, `authKeyBytesVec` returns the raw digest of the public
key bytes concatenated with the single scheme byte `0x00`, untruncated (hence
of the digest's fixed 32-byte length), and the result depends only on the
public key bytes (determinism). -/
theorem authKeyBytesVec_spec (hash : List Nat → List Nat)
    (h32 : ∀ bs, (hash bs).length = 32) (k : Ed25519Key) :
    authKeyBytesVec hash k = hash (k.publicKeyBytes ++ [0])
    ∧ (authKeyBytesVec hash k).length = 32
    ∧ ∀ k2 : Ed25519Key, k2.publicKeyBytes = k.publicKeyBytes →
        authKeyBytesVec hash k2 = authKeyBytesVec hash k :=
  ⟨rfl, h32 _, fun k2 h => by simp [authKeyBytesVec, h]⟩

/-- C4 witness: a digest of fixed output length 32 instantiates the claim. -/
theorem authKeyBytesVec_spec_witness :
    (authKeyBytesVec (fun _ => List.replicate 32 0) ⟨[1], [2]⟩).length = 32 :=
  (authKeyBytesVec_spec (fun _ => List.replicate 32 0) (fun bs => by simp) ⟨[1], [2]⟩).2.1

/-! ### Matcher lemmas -/

theorem matchesAddr_eq (addr : List Char) (pfx sfx : Option (List Char)) :
    matchesAddr addr pfx sfx =
      ((!jsTruthy pfx || List.isPrefixOf (pfx.getD []) addr) &&
       (!jsTruthy sfx || List.isSuffixOf (sfx.getD []) addr)) := by
  unfold matchesAddr
  cases h1 : jsTruthy pfx <;> cases h2 : jsTruthy sfx <;>
    cases h3 : List.isPrefixOf (pfx.getD []) addr <;>
    cases h4 : List.isSuffixOf (sfx.getD []) addr <;>
      simp [h1, h2, h3, h4]

/-! ### Claim C5 -/

/-- C5: the match predicate holds iff (no prefix is given or the address
starts with it) and (no suffix is given or the address ends with it); an
empty-string prefix or suffix behaves exactly as if not given, and with
neither given the predicate is always true. -/
theorem matchesAddr_spec (addr : List Char) (pfx sfx : Option (List Char)) :
    (matchesAddr addr pfx sfx = true ↔
      ((∀ p, pfx = some p → p ≠ [] → List.isPrefixOf p addr = true) ∧
       (∀ s, sfx = some s → s ≠ [] → List.isSuffixOf s addr = true)))
    ∧ matchesAddr addr (some []) sfx = matchesAddr addr none sfx
    ∧ matchesAddr addr pfx (some []) = matchesAddr addr pfx none
    ∧ matchesAddr addr none none = true := by
  refine ⟨?_, ?_, ?_, ?_⟩
  · rcases pfx with _ | p <;> rcases sfx with _ | s
    · simp [matchesAddr_eq, jsTruthy]
    · rcases s with _ | ⟨c, s⟩ <;> simp [matchesAddr_eq, jsTruthy]
    · rcases p with _ | ⟨c, p⟩ <;> simp [matchesAddr_eq, jsTruthy]
    · rcases p with _ | ⟨c, p⟩ <;> rcases s with _ | ⟨d, s⟩ <;>
        simp [matchesAddr_eq, jsTruthy]
  · rw [matchesAddr_eq, matchesAddr_eq]; rfl
  · rw [matchesAddr_eq, matchesAddr_eq]; rfl
  · rfl

/-! ### Worker-loop counting lemmas -/

theorem generateKey_cons (hash : List Nat → List Nat) (wd : WorkerData)
    (k : Ed25519Key) (rest : List Ed25519Key) (c : Nat) :
    generateKey hash wd (k :: rest) c =
      (if (c + 1) % 1000 = 0 then [WorkerMessage.progress 1000] else []) ++
      (if matchesAddr (bytesToHex (searchBytesOf hash wd k)) wd.pfx wd.sfx then
        [WorkerMessage.result (bytesToHex (searchBytesOf hash wd k))
          (bytesToHex k.privateKeyBytes)
          (if wd.multisig then some (bytesToHex (searchBytesOf hash wd k)) else none)]
      else []) ++ generateKey hash wd rest (c + 1) := rfl

theorem countProgress_generateKey (hash : List Nat → List Nat) (wd : WorkerData) :
    ∀ (keys : List Ed25519Key) (c : Nat),
      countProgress (generateKey hash wd keys c) = (c + keys.length) / 1000 - c / 1000
  | [], c => by simp [generateKey, countProgress]
  | k :: rest, c => by
    have ih := countProgress_generateKey hash wd rest (c + 1)
    rw [countProgress, generateKey_cons, List.countP_append, List.countP_append]
    rw [countProgress] at ih
    rw [ih]
    by_cases hp : (c + 1) % 1000 = 0 <;>
      cases hm : matchesAddr (bytesToHex (searchBytesOf hash wd k)) wd.pfx wd.sfx <;>
        simp [hp, hm, List.countP_cons, List.countP_nil, isProgress] <;> omega

theorem countResults_generateKey (hash : List Nat → List Nat) (wd : WorkerData) :
    ∀ (keys : List Ed25519Key) (c : Nat),
      countResults (generateKey hash wd keys c) =
        keys.countP (fun k => matchesAddr (bytesToHex (searchBytesOf hash wd k)) wd.pfx wd.sfx)
  | [], c => by simp [generateKey, countResults]
  | k :: rest, c => by
    have ih := countResults_generateKey hash wd rest (c + 1)
    rw [countResults, generateKey_cons, List.countP_append, List.countP_append]
    rw [countResults] at ih
    rw [ih]
    by_cases hp : (c + 1) % 1000 = 0 <;>
      cases hm : matchesAddr (bytesToHex (searchBytesOf hash wd k)) wd.pfx wd.sfx <;>
        simp [hp, hm, List.countP_cons, List.countP_nil, isResult] <;> omega

theorem sumProgress_generateKey (hash : List Nat → List Nat) (wd : WorkerData) :
    ∀ (keys : List Ed25519Key) (c : Nat),
      sumProgress (generateKey hash wd keys c) =
        1000 * countProgress (generateKey hash wd keys c)
  | [], c => by simp [generateKey, sumProgress, countProgress]
  | k :: rest, c => by
    have ih := sumProgress_generateKey hash wd rest (c + 1)
    rw [sumProgress, countProgress, generateKey_cons] at *
    rw [List.map_append, List.map_append, List.sum_append, List.sum_append,
      List.countP_append, List.countP_append]
    by_cases hp : (c + 1) % 1000 = 0 <;>
      cases hm : matchesAddr (bytesToHex (searchBytesOf hash wd k)) wd.pfx wd.sfx <;>
        simp [hp, hm, List.countP_cons, List.countP_nil, isProgress, progressAmount] <;> omega

theorem progOk_generateKey (hash : List Nat → List Nat) (wd : WorkerData) :
    ∀ (keys : List Ed25519Key) (c : Nat), (generateKey hash wd keys c).all progOk = true
  | [], c => rfl
  | k :: rest, c => by
    have ih := progOk_generateKey hash wd rest (c + 1)
    rw [generateKey_cons, List.all_append, List.all_append]
    by_cases hp : (c + 1) % 1000 = 0 <;>
      cases hm : matchesAddr (bytesToHex (searchBytesOf hash wd k)) wd.pfx wd.sfx <;>
        simp [hp, hm, ih, progOk]

/-! ### Claim C2 -/

/-- C2 counterexample: a worker run of 1000 attempts during which every single
attempt matches (no prefix or suffix configured) still emits one progress
event, so the counter driving the 1000-boundary counts matching attempts,
not only non-matching ones. -/
theorem progress_emitted_on_matching_attempts :
    countProgress (generateKey (fun _ => []) ⟨none, none, false⟩
        (List.replicate 1000 ⟨[], []⟩) 0) = 1
    ∧ countResults (generateKey (fun _ => []) ⟨none, none, false⟩
        (List.replicate 1000 ⟨[], []⟩) 0) = 1000 := by
  constructor
  · rw [countProgress_generateKey, List.length_replicate]
  · rw [countResults_generateKey]
    exact (List.countP_eq_length.mpr (fun k hk => rfl)).trans (List.length_replicate 1000 _)

/-- C2 (amended): a worker emits one `ProgressEvent{incrementCount: 1000}`
each time its local attempt counter crosses a multiple of 1000, where the
counter counts every attempt, matching or not: over `keys.length` attempts
starting from counter value `c` exactly
`(c + keys.length) / 1000 - c / 1000` progress events are emitted, and every
progress event carries exactly 1000. -/
theorem progress_every_1000_attempts (hash : List Nat → List Nat) (wd : WorkerData)
    (keys : List Ed25519Key) (c : Nat) :
    countProgress (generateKey hash wd keys c) = (c + keys.length) / 1000 - c / 1000
    ∧ (generateKey hash wd keys c).all progOk = true :=
  ⟨countProgress_generateKey hash wd keys c, progOk_generateKey hash wd keys c⟩

/-! ### Hex-alphabet lemmas -/

theorem isLowerHexDigit_hexDigitChar : ∀ d, d < 16 → isLowerHexDigit (hexDigitChar d) = true := by
  decide

theorem natToHexChars_all_hex (n : Nat) : (natToHexChars n).all isLowerHexDigit = true := by
  rcases Nat.eq_zero_or_pos n with rfl | hn
  · decide
  · rw [natToHexChars, if_neg (by omega), hexChars_map, List.all_eq_true]
    intro c hc
    rw [List.mem_map] at hc
    obtain ⟨d, hd, rfl⟩ := hc
    exact isLowerHexDigit_hexDigitChar d (hexDigits_lt n d hd)

theorem byteToHex_all_hex (b : Nat) : (byteToHex b).all isLowerHexDigit = true := by
  rw [byteToHex, padStart, List.all_append]
  refine Bool.and_eq_true_iff.mpr ⟨?_, natToHexChars_all_hex b⟩
  rw [List.all_eq_true]
  intro c hc
  rw [List.eq_of_mem_replicate hc]
  decide

theorem bytesToHex_all_hex (bs : List Nat) : (bytesToHex bs).all isLowerHexDigit = true := by
  induction bs with
  | nil => rfl
  | cons b t ih =>
    rw [bytesToHex, List.map_cons, List.flatten_cons, List.all_append]
    exact Bool.and_eq_true_iff.mpr ⟨byteToHex_all_hex b, ih⟩

theorem matchesAddr_false_of_nonhex (addr : List Char) (pfx sfx : Option (List Char))
    (haddr : addr.all isLowerHexDigit = true)
    (h : (∃ c ∈ pfx.getD [], isLowerHexDigit c = false) ∨
         (∃ c ∈ sfx.getD [], isLowerHexDigit c = false)) :
    matchesAddr addr pfx sfx = false := by
  rw [matchesAddr_eq]
  rcases h with ⟨c, hc, hcf⟩ | ⟨c, hc, hcf⟩
  · have htr : jsTruthy pfx = true := by
      rcases pfx with _ | p
      · simp at hc
      · simp only [Option.getD_some] at hc
        rcases p with _ | ⟨a, p⟩
        · simp at hc
        · rfl
    have hpf : List.isPrefixOf (pfx.getD []) addr = false := by
      cases hx : List.isPrefixOf (pfx.getD []) addr with
      | false => rfl
      | true =>
        exfalso
        have hmem : c ∈ addr := (List.isPrefixOf_iff_prefix.mp hx).subset hc
        have := List.all_eq_true.mp haddr c hmem
        rw [hcf] at this
        exact Bool.noConfusion this
    rw [htr, hpf]
    rfl
  · have htr : jsTruthy sfx = true := by
      rcases sfx with _ | s
      · simp at hc
      · simp only [Option.getD_some] at hc
        rcases s with _ | ⟨a, s⟩
        · simp at hc
        · rfl
    have hsf : List.isSuffixOf (sfx.getD []) addr = false := by
      cases hx : List.isSuffixOf (sfx.getD []) addr with
      | false => rfl
      | true =>
        exfalso
        have hmem : c ∈ addr := (List.isSuffixOf_iff_suffix.mp hx).subset hc
        have := List.all_eq_true.mp haddr c hmem
        rw [hcf] at this
        exact Bool.noConfusion this
    rw [htr, hsf]
    simp

/-! ### Claim C9 -/

/-- C9: `bytesToHex` only ever produces the lowercase hex alphabet `0-9a-f`,
the match is case-sensitive and never normalized, so whenever the configured
prefix or suffix contains any character outside that alphabet (for example an
uppercase hex digit) no derived address ever matches and the worker never
emits a result event. -/
theorem nonhex_pattern_never_matches (bs : List Nat) (hash : List Nat → List Nat)
    (wd : WorkerData) (keys : List Ed25519Key) (c : Nat)
    (h : (∃ ch ∈ wd.pfx.getD [], isLowerHexDigit ch = false) ∨
         (∃ ch ∈ wd.sfx.getD [], isLowerHexDigit ch = false)) :
    (bytesToHex bs).all isLowerHexDigit = true
    ∧ countResults (generateKey hash wd keys c) = 0 := by
  refine ⟨bytesToHex_all_hex bs, ?_⟩
  rw [countResults_generateKey]
  rw [List.countP_eq_zero]
  intro k _
  simp only [Bool.not_eq_true]
  exact matchesAddr_false_of_nonhex _ wd.pfx wd.sfx (bytesToHex_all_hex _) h

/-- C9 witness: with the configured prefix `"A"` (an uppercase hex digit) a
concrete worker run emits no result event. -/
theorem nonhex_pattern_never_matches_witness :
    (bytesToHex [255]).all isLowerHexDigit = true
    ∧ countResults (generateKey (fun _ => [0]) ⟨some ['A'], none, false⟩
        [⟨[], []⟩, ⟨[1], [2]⟩] 0) = 0 :=
  nonhex_pattern_never_matches [255] (fun _ => [0]) ⟨some ['A'], none, false⟩
    [⟨[], []⟩, ⟨[1], [2]⟩] 0 (Or.inl ⟨'A', by decide, by decide⟩)

/-! ### Claim C10 -/

/-- C10: every result event a worker emits is coherent with its own private
key: it originates from a generated key pair whose private-key bytes rehex to
the event's `privateKey` field, and when multisig is off the event's `address`
field is the lowercase hex of `authKeyBytesVec` of that key (with no multisig
address), while when multisig is on it is the lowercase hex of
`createMultisigAccountAddress` applied to that standard address with nonce 0
(with `multisigAddress` set to the same hex). -/
theorem result_event_coherent (hash : List Nat → List Nat) (wd : WorkerData)
    (keys : List Ed25519Key) (c : Nat) (a p : List Char) (ma : Option (List Char))
    (hmem : WorkerMessage.result a p ma ∈ generateKey hash wd keys c) :
    ∃ k ∈ keys, p = bytesToHex k.privateKeyBytes
      ∧ (wd.multisig = false →
          a = bytesToHex (authKeyBytesVec hash k) ∧ ma = none)
      ∧ (wd.multisig = true →
          a = bytesToHex (createMultisigAccountAddress hash (authKeyBytesVec hash k)
                SEQUENCE_NUMBER_MULTISIG)
            ∧ ma = some a) := by
  induction keys generalizing c with
  | nil => simp [generateKey] at hmem
  | cons k rest ih =>
    rw [generateKey_cons, List.mem_append, List.mem_append] at hmem
    rcases hmem with (hprog | hres) | hrest
    · exfalso
      rcases Decidable.em ((c + 1) % 1000 = 0) with hp | hp <;>
        simp [hp] at hprog
    · have hres2 : WorkerMessage.result a p ma =
          WorkerMessage.result (bytesToHex (searchBytesOf hash wd k))
            (bytesToHex k.privateKeyBytes)
            (if wd.multisig then some (bytesToHex (searchBytesOf hash wd k)) else none) := by
        cases hm : matchesAddr (bytesToHex (searchBytesOf hash wd k)) wd.pfx wd.sfx with
        | false => rw [hm] at hres; simp at hres
        | true => rw [hm] at hres; simpa using hres
      injection hres2 with ha hp2 hma
      refine ⟨k, List.mem_cons_self k rest, hp2, ?_, ?_⟩
      · intro hmul
        rw [hmul] at hma
        simp only [Bool.false_eq_true, if_false] at hma
        refine ⟨?_, hma⟩
        rw [ha]
        simp [searchBytesOf, hmul]
      · intro hmul
        rw [hmul] at hma
        simp only [if_true] at hma
        constructor
        · rw [ha]
          simp [searchBytesOf, hmul]
        · rw [hma, ha]
    · obtain ⟨k2, hk2, hrest2⟩ := ih (c + 1) hrest
      exact ⟨k2, List.mem_cons_of_mem k hk2, hrest2⟩

/-- C10 witness: the single result event of a concrete non-multisig run is
coherent with the key pair that produced it. -/
theorem result_event_coherent_witness :
    ∃ k ∈ [(⟨[7], [9]⟩ : Ed25519Key)], ['0', '9'] = bytesToHex k.privateKeyBytes
      ∧ ((false : Bool) = false →
          ['0', '0'] = bytesToHex (authKeyBytesVec (fun _ => [0]) k) ∧
            (none : Option (List Char)) = none)
      ∧ ((false : Bool) = true →
          ['0', '0'] = bytesToHex (createMultisigAccountAddress (fun _ => [0])
                (authKeyBytesVec (fun _ => [0]) k) SEQUENCE_NUMBER_MULTISIG)
            ∧ (none : Option (List Char)) = some ['0', '0']) :=
  result_event_coherent (fun _ => [0]) ⟨none, none, false⟩ [⟨[7], [9]⟩] 0
    ['0', '0'] ['0', '9'] none (by decide)

/-! ### Claim C1 -/

/-- C1 (refuting the claim; the code contradicts its own output labels): in a
multisig run the emitted result event's `address` field and `multisigAddress`
field carry the same value — the multisig address hex — and the standard
address derived from the key's public key is not retained anywhere in the
event: concretely, with digest modeled as `l ↦ [l.length % 256]`, the single
result event is `result "23" "09" (some "23")` while the standard address
rehexes to `"02"` ≠ `"23"`. -/
theorem multisig_event_discards_standard_address :
    generateKey (fun l => [l.length % 256]) ⟨none, none, true⟩ [⟨[1], [9]⟩] 0 =
      [WorkerMessage.result ['2', '3'] ['0', '9'] (some ['2', '3'])]
    ∧ bytesToHex (authKeyBytesVec (fun l => [l.length % 256]) ⟨[1], [9]⟩) = ['0', '2']
    ∧ (['2', '3'] : List Char) ≠ ['0', '2'] := by decide

/-! ### Coordinator lemmas -/

theorem handleMessage_exited (count : Nat) (s : MainState) (m : WorkerMessage)
    (h : s.exitCode.isSome = true) : handleMessage count s m = s := by
  rw [handleMessage.eq_def, if_pos h]

theorem foldl_exited (count : Nat) : ∀ (ms : List WorkerMessage) (s : MainState),
    s.exitCode.isSome = true → ms.foldl (handleMessage count) s = s
  | [], _, _ => rfl
  | m :: ms, s, h => by
    rw [List.foldl_cons, handleMessage_exited count s m h, foldl_exited count ms s h]

theorem handleMessage_progress (count : Nat) (s : MainState) (cc : Nat)
    (he : s.exitCode = none) :
    handleMessage count s (WorkerMessage.progress cc) =
      { s with totalGenerated := s.totalGenerated + cc,
               progressProcessed := s.progressProcessed + 1 } := by
  rw [handleMessage.eq_def, if_neg (by simp [he])]

theorem handleMessage_result (count : Nat) (s : MainState) (a p : List Char)
    (ma : Option (List Char)) (he : s.exitCode = none) :
    handleMessage count s (WorkerMessage.result a p ma) =
      (if count ≤ s.foundCount + 1 then
        { s with foundCount := s.foundCount + 1, printedResults := s.printedResults + 1,
                 printedFinalStats := true, exitCode := some 0 }
      else
        { s with foundCount := s.foundCount + 1, printedResults := s.printedResults + 1 }) := by
  rw [handleMessage.eq_def, if_neg (by simp [he])]

theorem handleMessage_foundCount_mono (count : Nat) (s : MainState) (m : WorkerMessage) :
    s.foundCount ≤ (handleMessage count s m).foundCount := by
  by_cases he : s.exitCode.isSome = true
  · rw [handleMessage_exited count s m he]
  · have he2 : s.exitCode = none := by
      cases hx : s.exitCode
      · rfl
      · rw [hx] at he; simp at he
    cases m with
    | progress cc =>
      rw [handleMessage_progress count s cc he2]
    | result a p ma =>
      rw [handleMessage_result count s a p ma he2]
      by_cases hcg : count ≤ s.foundCount + 1 <;> simp [hcg]

theorem handleMessage_progress_foundCount (count : Nat) (s : MainState) (cc : Nat) :
    (handleMessage count s (WorkerMessage.progress cc)).foundCount = s.foundCount := by
  by_cases he : s.exitCode.isSome = true
  · rw [handleMessage_exited count s _ he]
  · have he2 : s.exitCode = none := by
      cases hx : s.exitCode
      · rfl
      · rw [hx] at he; simp at he
    rw [handleMessage_progress count s cc he2]

theorem foldl_run_char (count : Nat) (hc : 1 ≤ count) :
    ∀ (ms : List WorkerMessage) (s : MainState),
      s.exitCode = none → s.foundCount < count → s.printedResults = s.foundCount →
      (((ms.foldl (handleMessage count) s).exitCode = some 0 ↔
          count ≤ s.foundCount + countResults ms)
       ∧ (ms.foldl (handleMessage count) s).foundCount
           = min count (s.foundCount + countResults ms)
       ∧ (ms.foldl (handleMessage count) s).printedResults
           = (ms.foldl (handleMessage count) s).foundCount
       ∧ ((ms.foldl (handleMessage count) s).exitCode = some 0 →
           (ms.foldl (handleMessage count) s).printedFinalStats = true))
  | [], s, he, hf, hpr => by
    rw [List.foldl_nil]
    have hcr : countResults ([] : List WorkerMessage) = 0 := rfl
    rw [hcr, he]
    refine ⟨⟨fun hcon => absurd hcon (by simp), fun hcon => by omega⟩, by omega, hpr,
      fun hcon => absurd hcon (by simp)⟩
  | m :: ms, s, he, hf, hpr => by
    rw [List.foldl_cons]
    cases m with
    | progress cc =>
      rw [handleMessage_progress count s cc he]
      have hcr : countResults (WorkerMessage.progress cc :: ms) = countResults ms := by
        rw [countResults, List.countP_cons]
        simp [isProgress, isResult, countResults]
      rw [hcr]
      exact foldl_run_char count hc ms _ (by simp [he]) (by simpa using hf) (by simpa using hpr)
    | result a p ma =>
      rw [handleMessage_result count s a p ma he]
      have hcr : countResults (WorkerMessage.result a p ma :: ms) = countResults ms + 1 := by
        rw [countResults, List.countP_cons]
        simp [isResult, countResults]
      rw [hcr]
      by_cases hcg : count ≤ s.foundCount + 1
      · rw [if_pos hcg]
        rw [foldl_exited count ms _ (by rfl)]
        have hfc : s.foundCount + 1 = count := by omega
        refine ⟨⟨fun _ => by omega, fun _ => rfl⟩, ?_, ?_, fun _ => rfl⟩
        · simp only []
          omega
        · simp only []
          omega
      · rw [if_neg hcg]
        have hrec := foldl_run_char count hc ms
          { s with foundCount := s.foundCount + 1, printedResults := s.printedResults + 1 }
          (by simp [he]) (by simp; omega) (by simp [hpr])
        have harith : s.foundCount + (countResults ms + 1)
            = s.foundCount + 1 + countResults ms := by omega
        rw [harith]
        exact hrec

/-! ### Claim C7 -/

/-- C7: `foundCount` is monotonically non-decreasing and is incremented only
by result events; the process exits with code 0 — after printing the final
statistics — exactly when `foundCount` first reaches the target `count`
(for the run: exit iff at least `count` results arrived, and on exit
`foundCount = count` exactly); once exited no further message is processed,
so the number of printed results never exceeds `count`. -/
theorem coordinator_terminates_at_target (count : Nat) (ms : List WorkerMessage)
    (hc : 1 ≤ count) :
    ((runMain count ms).exitCode = some 0 ↔ count ≤ countResults ms)
    ∧ (runMain count ms).foundCount = min count (countResults ms)
    ∧ (runMain count ms).printedResults = (runMain count ms).foundCount
    ∧ ((runMain count ms).exitCode = some 0 →
        (runMain count ms).foundCount = count ∧ (runMain count ms).printedFinalStats = true)
    ∧ (∀ (s : MainState) (m : WorkerMessage), s.foundCount ≤ (handleMessage count s m).foundCount)
    ∧ (∀ (s : MainState) (cc : Nat),
        (handleMessage count s (WorkerMessage.progress cc)).foundCount = s.foundCount)
    ∧ (∀ (s : MainState) (m : WorkerMessage), s.exitCode.isSome = true →
        handleMessage count s m = s) := by
  simp only [runMain]
  have h := foldl_run_char count hc ms initialState rfl (by simpa using hc) rfl
  obtain ⟨h1, h2, h3, h4⟩ := h
  have hz : initialState.foundCount = 0 := rfl
  rw [hz, Nat.zero_add] at h1 h2
  refine ⟨h1, h2, h3, fun hex => ⟨?_, h4 hex⟩, handleMessage_foundCount_mono count,
    handleMessage_progress_foundCount count, handleMessage_exited count⟩
  have hcnt := h1.mp hex
  rw [h2]
  omega

/-- C7 witness: with target count 1, a single result message makes the
coordinator exit with code 0. -/
theorem coordinator_terminates_at_target_witness :
    (runMain 1 [WorkerMessage.result [] [] none]).exitCode = some 0 :=
  (coordinator_terminates_at_target 1 [WorkerMessage.result [] [] none] (by decide)).1.mpr
    (by decide)

/-! ### Claim C8 -/

theorem foldl_totalGenerated (count : Nat) :
    ∀ (ms : List WorkerMessage) (s : MainState),
      ms.all progOk = true →
      s.totalGenerated = 1000 * s.progressProcessed →
      (ms.foldl (handleMessage count) s).totalGenerated
        = 1000 * (ms.foldl (handleMessage count) s).progressProcessed
  | [], s, _, hinv => by simpa using hinv
  | m :: ms, s, hall, hinv => by
    rw [List.all_cons, Bool.and_eq_true_iff] at hall
    rw [List.foldl_cons]
    apply foldl_totalGenerated count ms _ hall.2
    by_cases he : s.exitCode.isSome = true
    · rw [handleMessage_exited count s m he]; exact hinv
    · have he2 : s.exitCode = none := by
        cases hx : s.exitCode
        · rfl
        · rw [hx] at he; simp at he
      cases m with
      | progress cc =>
        have hcc : cc = 1000 := by simpa [progOk] using hall.1
        rw [handleMessage_progress count s cc he2]
        simp only []
        omega
      | result a p ma =>
        rw [handleMessage_result count s a p ma he2]
        by_cases hcg : count ≤ s.foundCount + 1 <;> simp [hcg, hinv]

/-- C8: after the coordinator processes any sequence of worker messages
(whose progress events all carry exactly 1000, as every worker-emitted
progress event does), `totalGenerated` equals 1000 times the number of
progress events processed, hence is always a multiple of 1000; and a worker
observed over `n` attempts reports exactly `1000 * (n / 1000)` generations
through its progress events, so the unfinished partial batch `n % 1000`
below the next 1000-boundary is never included in any reported total. -/
theorem totalGenerated_multiple_of_1000 (count : Nat) (ms : List WorkerMessage)
    (hall : ms.all progOk = true) (hash : List Nat → List Nat) (wd : WorkerData)
    (keys : List Ed25519Key) :
    (runMain count ms).totalGenerated = 1000 * (runMain count ms).progressProcessed
    ∧ (1000 : Nat) ∣ (runMain count ms).totalGenerated
    ∧ sumProgress (generateKey hash wd keys 0) = 1000 * (keys.length / 1000)
    ∧ (generateKey hash wd keys 0).all progOk = true := by
  have h1 := foldl_totalGenerated count ms initialState hall rfl
  refine ⟨h1, ⟨(runMain count ms).progressProcessed, h1⟩, ?_,
    progOk_generateKey hash wd keys 0⟩
  rw [sumProgress_generateKey, countProgress_generateKey]
  omega

/-- C8 witness: one progress message of 1000 keeps `totalGenerated` at 1000
times the processed progress count. -/
theorem totalGenerated_multiple_of_1000_witness :
    (runMain 1 [WorkerMessage.progress 1000]).totalGenerated
      = 1000 * (runMain 1 [WorkerMessage.progress 1000]).progressProcessed :=
  (totalGenerated_multiple_of_1000 1 [WorkerMessage.progress 1000] (by decide)
    (fun _ => []) ⟨none, none, false⟩ []).1

/-! ### Estimate numerics -/

theorem log_128_125_gt : (0.023715 : ℝ) < Real.log (128 / 125) := by
  have hx : |(0.023715 : ℝ)| ≤ 1 := by rw [abs_of_nonneg] <;> norm_num
  have hb := @Real.exp_bound 0.023715 hx 4 (by norm_num)
  rw [Real.lt_log_iff_exp_lt (by norm_num : (0:ℝ) < 128/125)]
  have hsum : ∑ m ∈ Finset.range 4, (0.023715:ℝ) ^ m / m.factorial
      = 1 + 0.023715 + 0.023715 ^ 2 / 2 + 0.023715 ^ 3 / 6 := by
    simp [Finset.sum_range_succ, Nat.factorial]
  rw [hsum] at hb
  have habs := abs_sub_le_iff.mp hb
  have herr : |(0.023715:ℝ)| ^ 4 * ((4:ℕ).succ / ((Nat.factorial 4 : ℝ) * 4)) ≤ 0.00000002 := by
    rw [abs_of_nonneg (by norm_num : (0:ℝ) ≤ 0.023715)]
    norm_num [Nat.factorial]
  have h1 := habs.1
  have : Real.exp 0.023715 ≤ 1 + 0.023715 + 0.023715 ^ 2 / 2 + 0.023715 ^ 3 / 6
      + 0.00000002 := by
    have := herr
    push_cast at h1 this ⊢
    linarith
  calc Real.exp 0.023715 ≤ 1 + 0.023715 + 0.023715 ^ 2 / 2 + 0.023715 ^ 3 / 6
      + 0.00000002 := this
    _ < 128/125 := by norm_num

theorem log_128_125_lt : Real.log (128 / 125) < (0.023718 : ℝ) := by
  have hx : |(0.023718 : ℝ)| ≤ 1 := by rw [abs_of_nonneg] <;> norm_num
  have hb := @Real.exp_bound 0.023718 hx 4 (by norm_num)
  rw [Real.log_lt_iff_lt_exp (by norm_num : (0:ℝ) < 128/125)]
  have hsum : ∑ m ∈ Finset.range 4, (0.023718:ℝ) ^ m / m.factorial
      = 1 + 0.023718 + 0.023718 ^ 2 / 2 + 0.023718 ^ 3 / 6 := by
    simp [Finset.sum_range_succ, Nat.factorial]
  rw [hsum] at hb
  have habs := abs_sub_le_iff.mp hb
  have herr : |(0.023718:ℝ)| ^ 4 * ((4:ℕ).succ / ((Nat.factorial 4 : ℝ) * 4)) ≤ 0.00000002 := by
    rw [abs_of_nonneg (by norm_num : (0:ℝ) ≤ 0.023718)]
    norm_num [Nat.factorial]
  have h2 := habs.2
  have : 1 + 0.023718 + 0.023718 ^ 2 / 2 + 0.023718 ^ 3 / 6 - 0.00000002
      ≤ Real.exp 0.023718 := by
    push_cast at h2 herr ⊢
    linarith
  calc (128:ℝ)/125 < 1 + 0.023718 + 0.023718 ^ 2 / 2 + 0.023718 ^ 3 / 6
      - 0.00000002 := by norm_num
    _ ≤ Real.exp 0.023718 := this

theorem log_twenty_identity : 3 * Real.log 20 = 13 * Real.log 2 - Real.log (128/125) := by
  have h8000 : ((20:ℝ))^3 = 2^13 * (125/128) := by norm_num
  have hlog : Real.log ((20:ℝ)^3) = Real.log ((2:ℝ)^13 * (125/128)) := by rw [h8000]
  rw [Real.log_pow, Real.log_mul (by positivity) (by norm_num), Real.log_pow] at hlog
  have hinv : Real.log ((125:ℝ)/128) = -Real.log (128/125) := by
    rw [show ((125:ℝ)/128) = (128/125)⁻¹ by norm_num, Real.log_inv]
  rw [hinv] at hlog
  push_cast at hlog
  linarith

theorem attemptsNeeded_four : attemptsNeeded 4 = 196329 := by
  have hid := log_twenty_identity
  have h2lo := Real.log_two_gt_d9
  have h2hi := Real.log_two_lt_d9
  have hqlo := log_128_125_gt
  have hqhi := log_128_125_lt
  have hlo : (196328:ℝ)/65536 < Real.log 20 := by linarith
  have hhi : Real.log 20 < (196329:ℝ)/65536 := by linarith
  rw [attemptsNeeded]
  have h005 : (-Real.log 0.05) = Real.log 20 := by
    rw [show (0.05:ℝ) = 20⁻¹ by norm_num, Real.log_inv, neg_neg]
  rw [h005]
  have hdiv : Real.log 20 / (1 / (16:ℝ)^4) = Real.log 20 * 65536 := by
    rw [show (1 / (16:ℝ)^4) = (65536:ℝ)⁻¹ by norm_num, div_inv_eq_mul]
  rw [hdiv, Int.ceil_eq_iff]
  constructor
  · push_cast
    nlinarith [hlo]
  · push_cast
    nlinarith [hhi]

/-! ### Claim C6 -/

/-- C6 counterexample: for a prefix of length 4 and no suffix the computed
`attemptsNeeded = ceil(-ln(0.05) / 16^-4)` equals 196,329 and in particular
is not (approximately) 191,481 as the claim states. -/
theorem attemptsNeeded_not_191481 :
    attemptsNeeded (matchNeeded (some ['a', 'b', 'c', 'd']) none) = 196329
    ∧ attemptsNeeded (matchNeeded (some ['a', 'b', 'c', 'd']) none) ≠ 191481 := by
  have h4 : matchNeeded (some ['a', 'b', 'c', 'd']) none = 4 := rfl
  rw [h4, attemptsNeeded_four]
  exact ⟨rfl, by decide⟩

/-- C6 (amended): `calculateEstimate` returns the "Should be instant"
sentinel exactly when neither prefix nor suffix is given (in the JS-truthy
sense: absent or empty), and otherwise computes
`attemptsNeeded = ceil(-ln(0.05) / 16^-matchLength)`; for prefix length 4 and
suffix length 0 the computed value equals 196,329 (not ≈191,481). -/
theorem calculateEstimate_spec (p : List Char) (hp : p.length = 4) :
    (∀ pfx sfx : Option (List Char),
      calculateEstimateInstant pfx sfx = true ↔
        (jsTruthy pfx = false ∧ jsTruthy sfx = false))
    ∧ attemptsNeeded (matchNeeded (some p) none) = 196329 := by
  constructor
  · intro pfx sfx
    rw [calculateEstimateInstant]
    cases h1 : jsTruthy pfx <;> cases h2 : jsTruthy sfx <;> simp
  · have h4 : matchNeeded (some p) none = 4 := by simp [matchNeeded, hp]
    rw [h4]
    exact attemptsNeeded_four

/-- C6 witness: a concrete prefix of length 4. -/
theorem calculateEstimate_spec_witness :
    attemptsNeeded (matchNeeded (some ['v', 'a', 'n', 'y']) none) = 196329 :=
  (calculateEstimate_spec ['v', 'a', 'n', 'y'] (by decide)).2
